import Mathlib

/-
Verification model of the Package-Chat repository (src/ingest.py, src/retriever.py).
Python strings are modelled as `List Char`; Python `str.split`, `str.replace`,
`str.strip`, `str.lower`, `"sep".join` and `pathlib.Path.suffix` / `.name` /
`.parts` are embedded explicitly below.  Filesystem state (the set of on-disk
`.chroma_*` index directories) is passed explicitly; the external collaborators
(network acquisition, the chroma vector store, the embedding API) are modelled
as oracles, following the spec's component boundaries.
-/

/-- Python strings in this model. -/

abbrev Str := List Char

/-- Python `s.split(sep)` for a single-character separator `sep`
(used by the source as `section.split("\n")` and `s.split("/")`). -/

def splitCh (sep : Char) : List Char → List (List Char)
  | [] => [[]]
  | c :: rest =>
    if c = sep then [] :: splitCh sep rest
    else (splitCh sep rest).modifyHead (fun p => c :: p)

/-- Python `text.split("\n\n")` (left-to-right non-overlapping scan),
used by `chunk_text` in src/ingest.py line 257. -/

def splitParas : List Char → List (List Char)
  | [] => [[]]
  | [c] => [[c]]
  | c :: d :: rest =>
    if c = '\n' ∧ d = '\n' then [] :: splitParas rest
    else (splitParas (d :: rest)).modifyHead (fun p => c :: p)

/-- Python `sep.join(pieces)` for a single-character separator
(the source only uses `"\n".join(current_chunk)`). -/

def joinCh (sep : Char) : List (List Char) → List Char
  | [] => []
  | [u] => u
  | u :: us => u ++ sep :: joinCh sep us

/-- Python `s.lower()` (ASCII is all the source ever compares). -/

def lowerL (l : List Char) : List Char := l.map Char.toLower

/-- State of the accumulation loop in `chunk_text` (src/ingest.py lines 258-260):
`chunks` holds the already emitted chunks, `current_chunk` the pending units and
`current_length` the running length counter. -/

structure ChunkState where
  chunks : List Str
  current_chunk : List Str
  current_length : Nat
deriving DecidableEq

/-- The emit step `chunks.append("\n".join(current_chunk))` followed by the
reset of `current_chunk` and `current_length` (src/ingest.py lines 268-270 and
276-278). -/

def emitNow (st : ChunkState) : ChunkState :=
  { chunks := st.chunks ++ [joinCh '\n' st.current_chunk],
    current_chunk := [], current_length := 0 }

/-- One iteration of the accumulation loop of `chunk_text`: emit the running
chunk when `current_length + len(unit) > max_length and current_chunk`, then
append the unit and advance the counter by `len(unit) + sep` (`sep` is 1 for a
line, src/ingest.py line 272, and 2 for a section, line 280). -/

def pushUnit (max_length sep : Nat) (st : ChunkState) (u : Str) : ChunkState :=
  let st1 :=
    if max_length < st.current_length + u.length ∧ st.current_chunk ≠ [] then
      emitNow st
    else st
  { st1 with current_chunk := st1.current_chunk ++ [u],
             current_length := st1.current_length + u.length + sep }

/-- The inner line loop body of `chunk_text` (src/ingest.py lines 266-272). -/

def addLine (max_length : Nat) (st : ChunkState) (line : Str) : ChunkState :=
  pushUnit max_length 1 st line

/-- The section loop body of `chunk_text` (src/ingest.py lines 262-280): a
section longer than `max_length` is split on single newlines and pushed line by
line, a short section is pushed whole with separator weight 2. -/

def addSec (max_length : Nat) (st : ChunkState) (sec : Str) : ChunkState :=
  if max_length < sec.length then
    (splitCh '\n' sec).foldl (addLine max_length) st
  else
    pushUnit max_length 2 st sec

/-- `chunk_text(text, max_length)` from src/ingest.py lines 254-286. -/

def chunk_text (text : Str) (max_length : Nat) : List Str :=
  let st := (splitParas text).foldl (addSec max_length) ⟨[], [], 0⟩
  if st.current_chunk ≠ [] then st.chunks ++ [joinCh '\n' st.current_chunk]
  else st.chunks

/-- The atomic units of `chunk_text` on a given input: each blank-line section
that fits in `max_length` is one unit; an overlong section contributes its
single-newline lines as units. -/

def unitsOf (max_length : Nat) (text : Str) : List Str :=
  (splitParas text).flatMap
    (fun sec => if max_length < sec.length then splitCh '\n' sec else [sec])

-- ===== basic facts about the string helpers =====

def linesOfParas : List (List Char) → List (List Char)
  | [] => []
  | [p] => splitCh '\n' p
  | p :: ps => splitCh '\n' p ++ [] :: linesOfParas ps

def stLines (st : ChunkState) : List Str :=
  st.chunks.flatMap (splitCh '\n') ++ st.current_chunk.flatMap (splitCh '\n')

def ChunkInv (max_length : Nat) (U : List Str) (st : ChunkState) : Prop :=
  (∀ c ∈ st.chunks, ∃ b, b ≠ [] ∧ (∀ u ∈ b, u ∈ U) ∧ c = joinCh '\n' b ∧
    (b.length = 1 ∨ c.length ≤ max_length)) ∧
  (∀ u ∈ st.current_chunk, u ∈ U) ∧
  (st.current_chunk ≠ [] →
    (joinCh '\n' st.current_chunk).length + 1 ≤ st.current_length ∧
    (st.current_chunk.length = 1 ∨
      (joinCh '\n' st.current_chunk).length ≤ max_length))

def PYTHON_EXTENSIONS : List (Str × Str) :=
  [(".py".toList, "python".toList),
   (".md".toList, "markdown".toList),
   (".rst".toList, "restructuredtext".toList),
   (".txt".toList, "text".toList),
   (".pyi".toList, "python-stub".toList),
   ("py.typed".toList, "python-typed".toList),
   ("pyproject.toml".toList, "python-config".toList),
   ("setup.py".toList, "python-config".toList),
   ("setup.cfg".toList, "python-config".toList),
   ("requirements.txt".toList, "python-deps".toList),
   ("requirements-dev.txt".toList, "python-deps".toList),
   ("requirements-test.txt".toList, "python-deps".toList),
   ("MANIFEST.in".toList, "python-config".toList),
   ("README.md".toList, "documentation".toList),
   ("README.rst".toList, "documentation".toList),
   ("CHANGELOG.md".toList, "documentation".toList),
   ("CHANGELOG.rst".toList, "documentation".toList),
   ("LICENSE".toList, "documentation".toList),
   ("AUTHORS".toList, "documentation".toList),
   ("CONTRIBUTING.md".toList, "documentation".toList),
   ("CONTRIBUTING.rst".toList, "documentation".toList)]

/-- The `IGNORE_DIRS` set from src/ingest.py lines 59-87 (matched by exact,
case-sensitive string equality against each path component, including the
literal starred entries). -/

def IGNORE_DIRS : List Str :=
  [".git".toList, "__pycache__".toList, "venv".toList, ".venv".toList,
   "env".toList, ".env".toList, "build".toList, "dist".toList,
   "target".toList, ".pytest_cache".toList, ".mypy_cache".toList,
   ".ruff_cache".toList, ".coverage".toList, "htmlcov".toList,
   "site-packages".toList, "node_modules".toList, ".tox".toList,
   ".eggs".toList, "*.egg-info".toList, "*.egg".toList, "docs".toList,
   "doc".toList, "documentation".toList, "examples".toList,
   "example".toList]

/-- The `IGNORE_PATTERNS` set from src/ingest.py lines 90-96. -/

def IGNORE_PATTERNS : List Str :=
  ["*docs*".toList, "*doc*".toList, "*documentation*".toList,
   "*example*".toList, "*examples*".toList]

/-- One path component triggers the exclusion loop of `should_process_file`
(src/ingest.py lines 159-169): exact membership in `IGNORE_DIRS`, or the
lowercased component starts with a pattern of `IGNORE_PATTERNS` with its
stars removed (`pattern.replace("*", "")`). -/

def partExcluded (part : Str) : Bool :=
  IGNORE_DIRS.contains part ||
    IGNORE_PATTERNS.any (fun pat =>
      (pat.filter (fun c => !(c == '*'))).isPrefixOf (lowerL part))

/-- `pathlib.Path.suffix` of a file name: the last dot-suffix, empty when the
name has no dot, starts with its only dot, or ends with a dot. -/

def modelSuffix (name : Str) : Str :=
  if name.contains '.' then
    let tail := (name.reverse.takeWhile (fun c => !(c == '.'))).reverse
    let i := name.length - tail.length - 1
    if 0 < i ∧ i < name.length - 1 then name.drop i else []
  else []

/-- `should_process_file(file_path)` from src/ingest.py lines 156-175, applied
to the full component list of the walked path (`file_path.parts`, whose last
component is the file name). -/

def should_process_file (parts : List Str) : Bool :=
  if parts.any partExcluded then false
  else
    (PYTHON_EXTENSIONS.lookup (lowerL (modelSuffix (parts.getLastD [])))).isSome ||
      (PYTHON_EXTENSIONS.lookup (parts.getLastD [])).isSome

/-- The file-type computation of `collect_text_files` (src/ingest.py lines
209-212): `PYTHON_EXTENSIONS.get(suffix.lower(), PYTHON_EXTENSIONS.get(name,
"unknown"))`. -/

def fileType (name : Str) : Str :=
  (PYTHON_EXTENSIONS.lookup (lowerL (modelSuffix name))).getD
    ((PYTHON_EXTENSIONS.lookup name).getD "unknown".toList)

/-- One file of an acquired source tree: its path components relative to the
package root and its (already decoded) text content.  The encoding-fallback
loop of src/ingest.py lines 197-206 is modelled as always succeeding. -/

structure RawFile where
  rel : List Str
  content : Str
deriving DecidableEq

/-- One record of the `files` list built by `collect_text_files`
(src/ingest.py lines 215-222): path, content, content-type tag and
root-relative path. -/

structure FileInfo where
  path : List Str
  content : Str
  ftype : Str
  relative_path : List Str
deriving DecidableEq

/-- `collect_text_files(root_dir)` from src/ingest.py lines 178-251: walk every
file under the root (the walked path's components are the root's own components
followed by the file's relative components), keep those passing
`should_process_file`, and tag each kept file with its type.  Progress output
and per-file read errors are outside the functional contract. -/

def collect_text_files (rootParts : List Str) (tree : List RawFile) :
    List FileInfo :=
  tree.filterMap (fun f =>
    let parts := rootParts ++ f.rel
    if should_process_file parts then
      some ⟨parts, f.content, fileType (parts.getLastD []), f.rel⟩
    else none)

-- ===== identifier derivation and ingestion (src/ingest.py lines 289-350) =====

/-- Python `s.replace(".git", "")`: remove every occurrence of the four-letter
pattern, scanning left to right without overlap. -/

def replaceDotGit : List Char → List Char
  | c :: g :: i :: t :: rest2 =>
    if c == '.' && g == 'g' && i == 'i' && t == 't' then replaceDotGit rest2
    else c :: replaceDotGit (g :: i :: t :: rest2)
  | l => l

/-- Whether the pattern `".git"` occurs anywhere in the string. -/

def hasDotGit : List Char → Bool
  | c :: g :: i :: t :: rest =>
    (c == '.' && g == 'g' && i == 'i' && t == 't') ||
      hasDotGit (g :: i :: t :: rest)
  | _ => false

/-- The identifier computation of `ingest_and_index_package`
(src/ingest.py line 291): `package_name_or_repo_url.split("/")[-1].replace(".git", "")`. -/

def deriveIdentifier (package_name_or_repo_url : Str) : Str :=
  replaceDotGit ((splitCh '/' package_name_or_repo_url).getLastD [])

/-- The on-disk index directory for an input: `f".chroma_{identifier}"`
(src/ingest.py line 292). -/

def dbDirOf (package_name_or_repo_url : Str) : Str :=
  ".chroma_".toList ++ deriveIdentifier package_name_or_repo_url

/-- The failures `ingest_and_index_package` can surface, named as in the
spec's error taxonomy: acquisition failure (clone/download/extract, raised by
`download_and_extract_package`), the `RuntimeError` raised when no valid files
were collected, and a failure inside the embedding/batch-write call
`collection.add`. -/

inductive IngestError where
  | AcquisitionError : IngestError
  | EmptyCorpusError : IngestError
  | EmbedCommitError : IngestError
deriving DecidableEq

/-- Oracle for the external collaborators of one ingestion call: what
acquisition would return (`none` models a raised acquisition error, `some`
gives the package root's path components and the file tree), and whether the
embedding/batch write `collection.add` succeeds. -/

structure IngestEnv where
  acquireResult : Option (List Str × List RawFile)
  embedOk : Bool

instance {ε α : Type} [DecidableEq ε] [DecidableEq α] :
    DecidableEq (Except ε α) := fun a b =>
  match a, b with
  | .ok x, .ok y =>
    if h : x = y then isTrue (by rw [h])
    else isFalse (by intro hc; cases hc; exact h rfl)
  | .error e, .error f =>
    if h : e = f then isTrue (by rw [h])
    else isFalse (by intro hc; cases hc; exact h rfl)
  | .ok _, .error _ => isFalse (by intro hc; cases hc)
  | .error _, .ok _ => isFalse (by intro hc; cases hc)

/-- Observable outcome of one ingestion call: the returned/raised result, the
set of on-disk `.chroma_*` directories afterwards, whether acquisition work was
performed, how many embedding/batch-write calls were made and how many chunks
were committed. -/

structure IngestOutcome where
  result : Except IngestError Unit
  dirs : List Str
  acquired : Bool
  embedCalls : Nat
  indexed : Nat
deriving DecidableEq

/-- `ingest_and_index_package(package_name_or_repo_url)` from src/ingest.py
lines 289-350, over an explicit list `dirs` of existing on-disk `.chroma_*`
directories.  `chromadb.PersistentClient(path=db_dir)` (line 334) materialises
the store directory on disk when it is constructed, i.e. before
`collection.add` (line 343) embeds and writes the batch: the model therefore
adds `db_dir` to the directory list before consulting `embedOk`.  The
temporary acquisition directory is scoped (line 297) and never appears in
`dirs`. -/

def ingest_and_index_package (env : IngestEnv) (dirs : List Str)
    (package_name_or_repo_url : Str) : IngestOutcome :=
  let db_dir := dbDirOf package_name_or_repo_url
  if db_dir ∈ dirs then
    ⟨.ok (), dirs, false, 0, 0⟩
  else
    match env.acquireResult with
    | none => ⟨.error .AcquisitionError, dirs, true, 0, 0⟩
    | some (rootParts, tree) =>
      let files := collect_text_files rootParts tree
      if files.isEmpty then
        ⟨.error .EmptyCorpusError, dirs, true, 0, 0⟩
      else
        let docs := files.flatMap (fun f => chunk_text f.content 1000)
        let dirs2 := dirs ++ [db_dir]
        if env.embedOk then
          ⟨.ok (), dirs2, true, 1, docs.length⟩
        else
          ⟨.error .EmbedCommitError, dirs2, true, 1, 0⟩

-- ===== retrieval (src/retriever.py) =====

/-- The failure `retrieve_relevant_chunks` and `get_latest_package_name` can
surface (`RuntimeError` in the source, `NoIndexError` in the spec's
taxonomy). -/

inductive RetrieveError where
  | NoIndexError : RetrieveError
deriving DecidableEq

/-- Python `s.replace(".chroma_", "")`: remove every occurrence of the
eight-character pattern, scanning left to right without overlap
(src/retriever.py line 14). -/

def replaceChroma : List Char → List Char
  | c1 :: c2 :: c3 :: c4 :: c5 :: c6 :: c7 :: c8 :: rest2 =>
    if c1 == '.' && c2 == 'c' && c3 == 'h' && c4 == 'r' && c5 == 'o' &&
        c6 == 'm' && c7 == 'a' && c8 == '_' then
      replaceChroma rest2
    else c1 :: replaceChroma (c2 :: c3 :: c4 :: c5 :: c6 :: c7 :: c8 :: rest2)
  | l => l

/-- Whether the pattern `".chroma_"` occurs anywhere in the string. -/

def hasChroma : List Char → Bool
  | c1 :: c2 :: c3 :: c4 :: c5 :: c6 :: c7 :: c8 :: rest =>
    (c1 == '.' && c2 == 'c' && c3 == 'h' && c4 == 'r' && c5 == 'o' &&
      c6 == 'm' && c7 == 'a' && c8 == '_') ||
      hasChroma (c2 :: c3 :: c4 :: c5 :: c6 :: c7 :: c8 :: rest)
  | _ => false

/-- Python `s.strip("/\\")`: drop slashes and backslashes from both ends
(src/retriever.py line 14). -/

def stripSlashes (l : List Char) : List Char :=
  ((l.dropWhile (fun c => c == '/' || c == '\\')).reverse.dropWhile
    (fun c => c == '/' || c == '\\')).reverse

/-- The first element of `sorted(dirs, key=os.path.getmtime, reverse=True)`:
the entry with the largest modification time, earliest listed first on ties
(Python's sort is stable). -/

def latestDir : List (Str × Nat) → Option (Str × Nat)
  | [] => none
  | d :: rest => some (rest.foldl (fun best x => if best.2 < x.2 then x else best) d)

/-- The `glob.glob(".chroma_*/")` result set: the existing directories whose
name starts with `.chroma_` (each globbed path carries a trailing slash, added
back in `get_latest_package_name` below). -/

def chromaGlob (dirs : List (Str × Nat)) : List (Str × Nat) :=
  dirs.filter (fun d => ".chroma_".toList.isPrefixOf d.1)

/-- `get_latest_package_name()` from src/retriever.py lines 10-14, over an
explicit list of existing directories with their modification times. -/

def get_latest_package_name (dirs : List (Str × Nat)) :
    Except RetrieveError Str :=
  match latestDir (chromaGlob dirs) with
  | none => .error .NoIndexError
  | some d => .ok (stripSlashes (replaceChroma (d.1 ++ ['/'])))

/-- `retrieve_relevant_chunks(query, package_name, k)` from src/retriever.py
lines 17-35.  The chroma collection is an oracle `store` mapping the store
directory, the query and `k` to the `results["documents"]` list of document
lists; the function returns its first entry or `[]` (line 35).  Unlike
ingestion, the `PersistentClient` call here is reached only when the directory
already exists, so the directory list is left unchanged. -/

def retrieve_relevant_chunks (store : Str → Str → Nat → List (List Str))
    (dirs : List (Str × Nat)) (query : Str) (package_name : Option Str)
    (k : Nat) : Except RetrieveError (List Str) :=
  match (match package_name with
         | none => get_latest_package_name dirs
         | some p => .ok p) with
  | .error e => .error e
  | .ok p =>
    let db_dir := ".chroma_".toList ++ p
    if dirs.any (fun d => d.1 == db_dir) then
      .ok ((store db_dir query k).headD [])
    else .error .NoIndexError

-- ===== classification lemmas and claims =====

theorem splitCh_ne_nil (sep : Char) (l : List Char) : splitCh sep l ≠ [] := by
  induction l with
  | nil => simp [splitCh]
  | cons c rest ih =>
    simp only [splitCh]
    by_cases h : c = sep
    · simp [h]
    · simp only [if_neg h]
      cases hs : splitCh sep rest with
      | nil => exact absurd hs ih
      | cons a t => simp [List.modifyHead]

theorem modifyHead_append_left {α : Type} (f : α → α) (x y : List α)
    (hx : x ≠ []) : (x ++ y).modifyHead f = x.modifyHead f ++ y := by
  cases x with
  | nil => exact absurd rfl hx
  | cons a t => simp [List.modifyHead]

theorem splitCh_append_sep (sep : Char) (a b : List Char) :
    splitCh sep (a ++ sep :: b) = splitCh sep a ++ splitCh sep b := by
  induction a with
  | nil => simp [splitCh]
  | cons c a' ih =>
    by_cases h : c = sep
    · simp [splitCh, h, ih]
    · show splitCh sep (c :: (a' ++ sep :: b)) = splitCh sep (c :: a') ++ splitCh sep b
      simp only [splitCh, if_neg h]
      rw [ih, modifyHead_append_left _ _ _ (splitCh_ne_nil sep a')]

theorem splitCh_of_not_mem (sep : Char) (l : List Char) (h : sep ∉ l) :
    splitCh sep l = [l] := by
  induction l with
  | nil => simp [splitCh]
  | cons c rest ih =>
    have hc : c ≠ sep := fun hc => h (hc ▸ List.mem_cons_self c rest)
    have hrest : sep ∉ rest := fun hr => h (List.mem_cons_of_mem c hr)
    simp [splitCh, hc, ih hrest, List.modifyHead]

theorem not_mem_of_mem_splitCh (sep : Char) (l p : List Char)
    (hp : p ∈ splitCh sep l) : sep ∉ p := by
  induction l generalizing p with
  | nil =>
    simp [splitCh] at hp
    simp [hp]
  | cons c rest ih =>
    by_cases h : c = sep
    · simp [splitCh, h] at hp
      rcases hp with hp | hp
      · simp [hp]
      · exact ih p hp
    · simp only [splitCh, if_neg h] at hp
      cases hs : splitCh sep rest with
      | nil => exact absurd hs (splitCh_ne_nil sep rest)
      | cons a t =>
        rw [hs] at hp
        simp [List.modifyHead] at hp
        rcases hp with hp | hp
        · subst hp
          intro hmem
          rcases List.mem_cons.mp hmem with h1 | h1
          · exact h h1.symm
          · exact ih a (hs ▸ List.mem_cons_self a t) h1
        · exact ih p (hs ▸ List.mem_cons_of_mem a hp)

theorem joinCh_append_last (sep : Char) (us : List (List Char)) (u : List Char)
    (h : us ≠ []) : joinCh sep (us ++ [u]) = joinCh sep us ++ sep :: u := by
  induction us with
  | nil => exact absurd rfl h
  | cons v vs ih =>
    cases vs with
    | nil => simp [joinCh]
    | cons w ws =>
      have h2 : joinCh sep ((w :: ws) ++ [u]) = joinCh sep (w :: ws) ++ sep :: u :=
        ih (by simp)
      calc joinCh sep ((v :: w :: ws) ++ [u])
          = v ++ sep :: joinCh sep ((w :: ws) ++ [u]) := rfl
        _ = v ++ sep :: (joinCh sep (w :: ws) ++ sep :: u) := by rw [h2]
        _ = (v ++ sep :: joinCh sep (w :: ws)) ++ sep :: u := by simp
        _ = joinCh sep (v :: w :: ws) ++ sep :: u := rfl

theorem splitCh_joinCh (sep : Char) (us : List (List Char)) (h : us ≠ []) :
    splitCh sep (joinCh sep us) = us.flatMap (splitCh sep) := by
  induction us with
  | nil => exact absurd rfl h
  | cons u vs ih =>
    cases vs with
    | nil => simp [joinCh]
    | cons w ws =>
      have hj : joinCh sep (u :: w :: ws) = u ++ sep :: joinCh sep (w :: ws) := rfl
      rw [hj, splitCh_append_sep, ih (by simp)]
      simp

theorem joinCh_cons_ne_nil (sep : Char) (u : List Char) (us : List (List Char))
    (hu : u ≠ []) : joinCh sep (u :: us) ≠ [] := by
  cases us with
  | nil => simpa [joinCh] using hu
  | cons w ws => simp [joinCh]

theorem splitParas_ne_nil (l : List Char) : splitParas l ≠ [] := by
  induction l using splitParas.induct with
  | case1 => simp [splitParas]
  | case2 c => simp [splitParas]
  | case3 c d rest h ih => simp [splitParas, h]
  | case4 c d rest h ih =>
    simp only [splitParas, if_neg h]
    cases hs : splitParas (d :: rest) with
    | nil => exact absurd hs ih
    | cons a t => simp [List.modifyHead]

theorem splitParas_of_not_mem (l : List Char) (h : '\n' ∉ l) :
    splitParas l = [l] := by
  induction l using splitParas.induct with
  | case1 => simp [splitParas]
  | case2 c => simp [splitParas]
  | case3 c d rest hcd ih =>
    exact absurd (hcd.1 ▸ List.mem_cons_self c (d :: rest)) h
  | case4 c d rest hcd ih =>
    have hd : '\n' ∉ d :: rest := fun hm => h (List.mem_cons_of_mem c hm)
    simp [splitParas, if_neg hcd, ih hd, List.modifyHead]

/-- The physical-line decomposition of a paragraph list: concatenate the lines
of each paragraph, inserting the one empty line that a `"\n\n"` separator
contributes between adjacent paragraphs. -/

theorem linesOfParas_cons (p : List Char) (ps : List (List Char)) (h : ps ≠ []) :
    linesOfParas (p :: ps) = splitCh '\n' p ++ [] :: linesOfParas ps := by
  cases ps with
  | nil => exact absurd rfl h
  | cons q qs => rfl

theorem splitCh_nl_eq_linesOfParas (l : List Char) :
    splitCh '\n' l = linesOfParas (splitParas l) := by
  induction l using splitParas.induct with
  | case1 => simp [splitCh, splitParas, linesOfParas]
  | case2 c =>
    by_cases h : c = '\n'
    · simp [splitCh, splitParas, linesOfParas, h]
    · simp [splitCh, splitParas, linesOfParas, h, List.modifyHead]
  | case3 c d rest hcd ih =>
    obtain ⟨hc, hd⟩ := hcd
    subst hc; subst hd
    have hrhs : splitParas ('\n' :: '\n' :: rest) = [] :: splitParas rest := by
      simp [splitParas]
    have hlhs : splitCh '\n' ('\n' :: '\n' :: rest) = [] :: [] :: splitCh '\n' rest := by
      simp [splitCh]
    rw [hlhs, hrhs, ih,
      linesOfParas_cons [] (splitParas rest) (splitParas_ne_nil rest)]
    simp [splitCh]
  | case4 c d rest hcd ih =>
    cases hs : splitParas (d :: rest) with
    | nil => exact absurd hs (splitParas_ne_nil _)
    | cons q qs =>
      rw [hs] at ih
      have hrhs : splitParas (c :: d :: rest) = (c :: q) :: qs := by
        rw [splitParas.eq_3, if_neg hcd, hs]; rfl
      rw [hrhs]
      by_cases hc : c = '\n'
      · subst hc
        have hlhs : splitCh '\n' ('\n' :: d :: rest) = [] :: splitCh '\n' (d :: rest) := by
          simp [splitCh]
        rw [hlhs, ih]
        cases qs with
        | nil => simp [linesOfParas, splitCh]
        | cons r rs =>
          rw [linesOfParas_cons q (r :: rs) (by simp),
            linesOfParas_cons ('\n' :: q) (r :: rs) (by simp)]
          simp [splitCh]
      · have hlhs : splitCh '\n' (c :: d :: rest) =
            (splitCh '\n' (d :: rest)).modifyHead (fun p => c :: p) := by
          simp [splitCh, hc]
        rw [hlhs, ih]
        cases qs with
        | nil => simp [linesOfParas, splitCh, hc]
        | cons r rs =>
          rw [linesOfParas_cons q (r :: rs) (by simp),
            modifyHead_append_left _ _ _ (splitCh_ne_nil '\n' q),
            linesOfParas_cons (c :: q) (r :: rs) (by simp)]
          simp [splitCh, hc]

theorem filter_linesOfParas (ps : List (List Char)) :
    (linesOfParas ps).filter (fun p => !p.isEmpty) =
      (ps.flatMap (splitCh '\n')).filter (fun p => !p.isEmpty) := by
  induction ps with
  | nil => simp [linesOfParas]
  | cons p qs ih =>
    cases qs with
    | nil => simp [linesOfParas]
    | cons r rs =>
      have hcons : (([] : List Char) :: linesOfParas (r :: rs)).filter
          (fun p => !p.isEmpty) =
          (linesOfParas (r :: rs)).filter (fun p => !p.isEmpty) := by
        simp
      rw [linesOfParas_cons p (r :: rs) (by simp), List.flatMap_cons,
        List.filter_append, List.filter_append, hcons, ih]

-- ===== the accumulated lines of a chunker state =====

/-- All physical lines already committed to a `ChunkState`, in order: the lines
of every emitted chunk followed by the lines of the pending units. -/

theorem stLines_pushUnit (max_length sep : Nat) (st : ChunkState) (u : Str) :
    stLines (pushUnit max_length sep st u) = stLines st ++ splitCh '\n' u := by
  by_cases h : max_length < st.current_length + u.length ∧ st.current_chunk ≠ []
  · have hemit : splitCh '\n' (joinCh '\n' st.current_chunk) =
        st.current_chunk.flatMap (splitCh '\n') :=
      splitCh_joinCh '\n' st.current_chunk h.2
    simp [pushUnit, emitNow, if_pos h, stLines, hemit]
  · simp [pushUnit, if_neg h, stLines]

theorem stLines_foldl_addLine (max_length : Nat) (ls : List Str) (st : ChunkState) :
    stLines (ls.foldl (addLine max_length) st) =
      stLines st ++ ls.flatMap (splitCh '\n') := by
  induction ls generalizing st with
  | nil => simp
  | cons l ls ih =>
    rw [List.foldl_cons, ih]
    rw [show addLine max_length st l = pushUnit max_length 1 st l from rfl,
      stLines_pushUnit]
    simp

theorem flatMap_splitCh_splitCh (sep : Char) (sec : List Char) :
    (splitCh sep sec).flatMap (splitCh sep) = splitCh sep sec := by
  have key : ∀ xs : List (List Char), (∀ p ∈ xs, splitCh sep p = [p]) →
      xs.flatMap (splitCh sep) = xs := by
    intro xs
    induction xs with
    | nil => intro _; simp
    | cons a t ih =>
      intro h
      rw [List.flatMap_cons, h a (List.mem_cons_self a t),
        ih (fun p hp => h p (List.mem_cons_of_mem a hp))]
      rfl
  exact key _ (fun p hp =>
    splitCh_of_not_mem sep p (not_mem_of_mem_splitCh sep sec p hp))

theorem stLines_addSec (max_length : Nat) (st : ChunkState) (sec : Str) :
    stLines (addSec max_length st sec) = stLines st ++ splitCh '\n' sec := by
  by_cases h : max_length < sec.length
  · rw [addSec, if_pos h, stLines_foldl_addLine, flatMap_splitCh_splitCh]
  · rw [addSec, if_neg h, stLines_pushUnit]

theorem stLines_foldl_addSec (max_length : Nat) (secs : List Str) (st : ChunkState) :
    stLines (secs.foldl (addSec max_length) st) =
      stLines st ++ secs.flatMap (splitCh '\n') := by
  induction secs generalizing st with
  | nil => simp
  | cons s ss ih =>
    rw [List.foldl_cons, ih, stLines_addSec]
    simp

-- ===== the chunker never returns an empty chunk list =====

theorem pushUnit_current_ne_nil (max_length sep : Nat) (st : ChunkState) (u : Str) :
    (pushUnit max_length sep st u).current_chunk ≠ [] := by
  by_cases h : max_length < st.current_length + u.length ∧ st.current_chunk ≠ []
  · simp [pushUnit, if_pos h]
  · simp [pushUnit, if_neg h]

theorem foldl_addLine_current_ne_nil (max_length : Nat) (ls : List Str)
    (st : ChunkState) (h : ls ≠ []) :
    (ls.foldl (addLine max_length) st).current_chunk ≠ [] := by
  induction ls generalizing st with
  | nil => exact absurd rfl h
  | cons l ls ih =>
    cases ls with
    | nil => exact pushUnit_current_ne_nil max_length 1 st l
    | cons l2 ls2 => exact ih (addLine max_length st l) (by simp)

theorem addSec_current_ne_nil (max_length : Nat) (st : ChunkState) (sec : Str) :
    (addSec max_length st sec).current_chunk ≠ [] := by
  by_cases h : max_length < sec.length
  · rw [addSec, if_pos h]
    exact foldl_addLine_current_ne_nil max_length _ st (splitCh_ne_nil '\n' sec)
  · rw [addSec, if_neg h]
    exact pushUnit_current_ne_nil max_length 2 st sec

theorem foldl_addSec_current_ne_nil (max_length : Nat) (secs : List Str)
    (st : ChunkState) (h : secs ≠ []) :
    (secs.foldl (addSec max_length) st).current_chunk ≠ [] := by
  induction secs generalizing st with
  | nil => exact absurd rfl h
  | cons s ss ih =>
    cases ss with
    | nil => exact addSec_current_ne_nil max_length st s
    | cons s2 ss2 => exact ih (addSec max_length st s) (by simp)

theorem chunk_text_ne_nil (text : Str) (max_length : Nat) :
    chunk_text text max_length ≠ [] := by
  rw [chunk_text]
  have h := foldl_addSec_current_ne_nil max_length (splitParas text) ⟨[], [], 0⟩
    (splitParas_ne_nil text)
  rw [if_pos h]
  simp

theorem chunk_text_flatMap (text : Str) (max_length : Nat) :
    (chunk_text text max_length).flatMap (splitCh '\n') =
      (splitParas text).flatMap (splitCh '\n') := by
  have hfold := stLines_foldl_addSec max_length (splitParas text) ⟨[], [], 0⟩
  have hne := foldl_addSec_current_ne_nil max_length (splitParas text) ⟨[], [], 0⟩
    (splitParas_ne_nil text)
  rw [chunk_text, if_pos hne]
  have hinit : stLines (⟨[], [], 0⟩ : ChunkState) = [] := by simp [stLines]
  rw [hinit] at hfold
  simp only [List.nil_append] at hfold
  rw [← hfold, stLines]
  rw [List.flatMap_append, List.flatMap_cons, List.flatMap_nil,
    splitCh_joinCh '\n' _ hne]
  simp

-- ===== block structure of emitted chunks =====

/-- Invariant of the accumulation loop of `chunk_text`: every emitted chunk is
the newline-join of a non-empty block of units (all drawn from `U`), and a
multi-unit chunk never exceeds `max_length`; the pending units are drawn from
`U`, the running counter dominates the pending join length, and a multi-unit
pending chunk never exceeds `max_length`. -/

theorem pushUnit_inv (max_length sep : Nat) (hsep : 1 ≤ sep) (U : List Str)
    (st : ChunkState) (u : Str) (hu : u ∈ U) (h : ChunkInv max_length U st) :
    ChunkInv max_length U (pushUnit max_length sep st u) := by
  obtain ⟨hchunks, hcur, hlen⟩ := h
  by_cases hc : max_length < st.current_length + u.length ∧ st.current_chunk ≠ []
  · have hpu : pushUnit max_length sep st u =
        ⟨st.chunks ++ [joinCh '\n' st.current_chunk], [u], u.length + sep⟩ := by
      simp [pushUnit, emitNow, if_pos hc]
    rw [hpu]
    refine ⟨?_, ?_, ?_⟩
    · intro c hcmem
      rcases List.mem_append.mp hcmem with hold | hnew
      · exact hchunks c hold
      · have hceq : c = joinCh '\n' st.current_chunk := List.mem_singleton.mp hnew
        exact ⟨st.current_chunk, hc.2, hcur, hceq, hceq ▸ (hlen hc.2).2⟩
    · intro v hv
      rw [List.mem_singleton.mp hv]
      exact hu
    · intro _
      constructor
      · show (joinCh '\n' [u]).length + 1 ≤ u.length + sep
        rw [show joinCh '\n' [u] = u from rfl]
        omega
      · exact Or.inl rfl
  · have hpu : pushUnit max_length sep st u =
        ⟨st.chunks, st.current_chunk ++ [u],
          st.current_length + u.length + sep⟩ := by
      simp [pushUnit, if_neg hc]
    rw [hpu]
    refine ⟨hchunks, ?_, ?_⟩
    · intro v hv
      rcases List.mem_append.mp hv with hv | hv
      · exact hcur v hv
      · rw [List.mem_singleton.mp hv]
        exact hu
    · intro _
      dsimp only
      by_cases hcc : st.current_chunk = []
      · rw [hcc]
        constructor
        · rw [show joinCh '\n' (([] : List Str) ++ [u]) = u from rfl]
          omega
        · exact Or.inl rfl
      · have hfit : st.current_length + u.length ≤ max_length := by
          rcases Decidable.not_and_iff_or_not.mp hc with h1 | h1
          · omega
          · exact absurd hcc (by simpa using h1)
        have hj : joinCh '\n' (st.current_chunk ++ [u]) =
            joinCh '\n' st.current_chunk ++ '\n' :: u :=
          joinCh_append_last '\n' st.current_chunk u hcc
        obtain ⟨hd, _⟩ := hlen hcc
        constructor
        · rw [hj]
          simp only [List.length_append, List.length_cons]
          omega
        · refine Or.inr ?_
          rw [hj]
          simp only [List.length_append, List.length_cons]
          omega

theorem foldl_addLine_inv (max_length : Nat) (U : List Str) (ls : List Str)
    (st : ChunkState) (hls : ∀ l ∈ ls, l ∈ U) (h : ChunkInv max_length U st) :
    ChunkInv max_length U (ls.foldl (addLine max_length) st) := by
  induction ls generalizing st with
  | nil => exact h
  | cons l ls ih =>
    rw [List.foldl_cons]
    exact ih (addLine max_length st l)
      (fun x hx => hls x (List.mem_cons_of_mem l hx))
      (pushUnit_inv max_length 1 (by omega) U st l
        (hls l (List.mem_cons_self l ls)) h)

theorem addSec_inv (max_length : Nat) (U : List Str) (st : ChunkState) (sec : Str)
    (hlong : max_length < sec.length → ∀ l ∈ splitCh '\n' sec, l ∈ U)
    (hshort : sec.length ≤ max_length → sec ∈ U) (h : ChunkInv max_length U st) :
    ChunkInv max_length U (addSec max_length st sec) := by
  by_cases hc : max_length < sec.length
  · rw [addSec, if_pos hc]
    exact foldl_addLine_inv max_length U _ st (hlong hc) h
  · rw [addSec, if_neg hc]
    exact pushUnit_inv max_length 2 (by omega) U st sec (hshort (by omega)) h

theorem foldl_addSec_inv (max_length : Nat) (U : List Str) (secs : List Str)
    (st : ChunkState)
    (hsecs : ∀ sec ∈ secs,
      (max_length < sec.length → ∀ l ∈ splitCh '\n' sec, l ∈ U) ∧
      (sec.length ≤ max_length → sec ∈ U))
    (h : ChunkInv max_length U st) :
    ChunkInv max_length U (secs.foldl (addSec max_length) st) := by
  induction secs generalizing st with
  | nil => exact h
  | cons s ss ih =>
    rw [List.foldl_cons]
    exact ih (addSec max_length st s)
      (fun x hx => hsecs x (List.mem_cons_of_mem s hx))
      (addSec_inv max_length U st s (hsecs s (List.mem_cons_self s ss)).1
        (hsecs s (List.mem_cons_self s ss)).2 h)

theorem chunk_text_blocks (text : Str) (max_length : Nat) :
    ∀ c ∈ chunk_text text max_length, ∃ b, b ≠ [] ∧
      (∀ u ∈ b, u ∈ unitsOf max_length text) ∧ c = joinCh '\n' b ∧
      (b.length = 1 ∨ c.length ≤ max_length) := by
  have hsecs : ∀ sec ∈ splitParas text,
      (max_length < sec.length →
        ∀ l ∈ splitCh '\n' sec, l ∈ unitsOf max_length text) ∧
      (sec.length ≤ max_length → sec ∈ unitsOf max_length text) := by
    intro sec hsec
    constructor
    · intro hlong l hl
      exact List.mem_flatMap.mpr ⟨sec, hsec, by rw [if_pos hlong]; exact hl⟩
    · intro hshort
      exact List.mem_flatMap.mpr ⟨sec, hsec, by
        rw [if_neg (by omega)]
        exact List.mem_singleton.mpr rfl⟩
  have hinit : ChunkInv max_length (unitsOf max_length text) ⟨[], [], 0⟩ := by
    refine ⟨?_, ?_, ?_⟩ <;> simp
  have hinv := foldl_addSec_inv max_length (unitsOf max_length text)
    (splitParas text) ⟨[], [], 0⟩ hsecs hinit
  have hne := foldl_addSec_current_ne_nil max_length (splitParas text)
    ⟨[], [], 0⟩ (splitParas_ne_nil text)
  obtain ⟨hchunks, hcur, hlen⟩ := hinv
  intro c hc
  rw [chunk_text, if_pos hne] at hc
  rcases List.mem_append.mp hc with hold | hnew
  · exact hchunks c hold
  · have hceq := List.mem_singleton.mp hnew
    exact ⟨_, hne, hcur, hceq, hceq ▸ (hlen hne).2⟩

-- ===== claims about the chunker =====

/-- C1: for every input text and every max_length ≥ 1, the chunks returned by
`chunk_text`, joined back with the newline separator, reproduce the input text
up to whitespace-boundary differences: the sequence of non-empty physical lines
is preserved exactly (no content loss, original order). -/

theorem C1_chunks_reconstruct (text : Str) (max_length : Nat)
    (_hmax : 1 ≤ max_length) :
    (splitCh '\n' (joinCh '\n' (chunk_text text max_length))).filter
        (fun p => !p.isEmpty) =
      (splitCh '\n' text).filter (fun p => !p.isEmpty) := by
  rw [splitCh_joinCh '\n' _ (chunk_text_ne_nil text max_length),
    chunk_text_flatMap, splitCh_nl_eq_linesOfParas text, filter_linesOfParas]

theorem C1_chunks_reconstruct_witness :
    1 ≤ 3 ∧
      (splitCh '\n' (joinCh '\n' (chunk_text "ab\n\ncd".toList 3))).filter
          (fun p => !p.isEmpty) =
        (splitCh '\n' "ab\n\ncd".toList).filter (fun p => !p.isEmpty) :=
  ⟨by decide, C1_chunks_reconstruct "ab\n\ncd".toList 3 (by decide)⟩

theorem addSec_short (max_length : Nat) (st : ChunkState) (sec : Str)
    (h : ¬ max_length < sec.length) :
    addSec max_length st sec = pushUnit max_length 2 st sec := by
  rw [addSec, if_neg h]

theorem pushUnit_no_emit (max_length sep : Nat) (st : ChunkState) (u : Str)
    (h : ¬(max_length < st.current_length + u.length ∧ st.current_chunk ≠ [])) :
    pushUnit max_length sep st u =
      ⟨st.chunks, st.current_chunk ++ [u], st.current_length + u.length + sep⟩ := by
  simp [pushUnit, if_neg h]

theorem chunk_text_single_unit (l : Str) (max_length : Nat) (hnl : '\n' ∉ l)
    (hlong : max_length < l.length) : chunk_text l max_length = [l] := by
  rw [chunk_text, splitParas_of_not_mem l hnl]
  simp only [List.foldl_cons, List.foldl_nil]
  rw [addSec, if_pos hlong, splitCh_of_not_mem '\n' l hnl]
  simp only [List.foldl_cons, List.foldl_nil, addLine]
  rw [pushUnit_no_emit max_length 1 ⟨[], [], 0⟩ l (by simp)]
  rw [if_pos (by simp)]
  simp [joinCh]

/-- C5: every chunk emitted by `chunk_text` has length at most `max_length`
unless it consists of a single atomic unit (one section or one line) that alone
exceeds `max_length`; in particular the input of 2000 copies of the letter a
with max_length 1000 yields exactly one chunk of length 2000. -/

theorem C5_oversized_unit_chunks :
    (∀ (text : Str) (max_length : Nat), ∀ c ∈ chunk_text text max_length,
      c.length ≤ max_length ∨
        (c ∈ unitsOf max_length text ∧ max_length < c.length)) ∧
    chunk_text (List.replicate 2000 'a') 1000 = [List.replicate 2000 'a'] := by
  constructor
  · intro text max_length c hc
    by_cases hle : c.length ≤ max_length
    · exact Or.inl hle
    · obtain ⟨b, hbne, hbU, hceq, hdisj⟩ := chunk_text_blocks text max_length c hc
      rcases hdisj with h1 | h1
      · obtain ⟨u, hu⟩ := List.length_eq_one.mp h1
        refine Or.inr ⟨?_, by omega⟩
        rw [hceq, hu]
        exact hbU u (by rw [hu]; exact List.mem_singleton.mpr rfl)
      · exact absurd h1 hle
  · have hnl : '\n' ∉ List.replicate 2000 'a' := by
      intro hm
      have h := List.eq_of_mem_replicate hm
      simp at h
    have hlen : (List.replicate 2000 'a').length = 2000 :=
      List.length_replicate 2000 'a'
    exact chunk_text_single_unit (List.replicate 2000 'a') 1000 hnl
      (by rw [hlen]; omega)

/-- C6 counterexample: on empty input, `chunk_text` returns the one-element
list containing the empty chunk, not the empty list — so the empty input does
not yield an empty sequence and the returned sequence contains an empty
string. -/

theorem C6_empty_chunk_counterexample :
    chunk_text [] 1000 = [[]] ∧ chunk_text [] 1000 ≠ [] ∧
      [] ∈ chunk_text [] 1000 := by
  refine ⟨by decide, by decide, by decide⟩

/-- C6 amended: on empty input `chunk_text` returns the single empty chunk,
and every returned chunk is non-empty provided every atomic unit of the input
(each blank-line section, and each line of an overlong section) is
non-empty. -/

theorem C6_nonempty_chunks_amended (text : Str) (max_length : Nat)
    (h : ∀ u ∈ unitsOf max_length text, u ≠ []) :
    (∀ c ∈ chunk_text text max_length, c ≠ []) ∧
      chunk_text [] max_length = [[]] := by
  constructor
  · intro c hc
    obtain ⟨b, hbne, hbU, hceq, _⟩ := chunk_text_blocks text max_length c hc
    cases b with
    | nil => exact absurd rfl hbne
    | cons u us =>
      rw [hceq]
      exact joinCh_cons_ne_nil '\n' u us (h u (hbU u (List.mem_cons_self u us)))
  · rw [chunk_text, show splitParas [] = [[]] from rfl]
    simp only [List.foldl_cons, List.foldl_nil]
    rw [addSec_short max_length ⟨[], [], 0⟩ [] (by simp),
      pushUnit_no_emit max_length 2 ⟨[], [], 0⟩ [] (by simp)]
    rw [if_pos (by simp)]
    simp [joinCh]

theorem C6_nonempty_chunks_amended_witness :
    (∀ u ∈ unitsOf 5 "ab".toList, u ≠ []) ∧
      ((∀ c ∈ chunk_text "ab".toList 5, c ≠ []) ∧
        chunk_text [] 5 = [[]]) :=
  ⟨by decide, C6_nonempty_chunks_amended "ab".toList 5 (by decide)⟩

-- ===== file classification (src/ingest.py lines 27-96 and 156-251) =====

/-- The `PYTHON_EXTENSIONS` table from src/ingest.py lines 28-56 (a Python dict
literal; its duplicate `".pyi"` keys carry the same value and collapse to one
entry). -/

theorem getLastD_append_right {α : Type} (xs ys : List α) (d : α)
    (h : ys ≠ []) : (xs ++ ys).getLastD d = ys.getLastD d := by
  induction xs with
  | nil => rfl
  | cons a t ih =>
    cases ys with
    | nil => exact absurd rfl h
    | cons b u =>
      rw [List.cons_append]
      rw [show ((a :: (t ++ b :: u)).getLastD d) = (t ++ b :: u).getLastD d from by
        cases hc : t ++ b :: u with
        | nil => exact absurd hc (by simp)
        | cons x y => simp [List.getLastD]]
      exact ih

theorem collect_singleton (rootParts rel : List Str) (content : Str) :
    collect_text_files rootParts [⟨rel, content⟩] =
      if should_process_file (rootParts ++ rel) then
        [⟨rootParts ++ rel, content,
          fileType ((rootParts ++ rel).getLastD []), rel⟩]
      else [] := by
  by_cases h : should_process_file (rootParts ++ rel)
  · simp [collect_text_files, h]
  · simp [collect_text_files, h]

/-- C7 counterexample: with a clean root `pkg`, the top-level file `docs.py`
(a `.py` file) is excluded because its own name matches the `*doc*` ignore
pattern, and `README.md` is included but classified as `markdown`, not
`documentation` (the extension lookup takes precedence over the exact-name
lookup). -/

theorem C7_counterexample :
    collect_text_files ["pkg".toList]
        [⟨["docs.py".toList], "x = 1".toList⟩,
         ⟨["README.md".toList], "hello".toList⟩] =
      [⟨["pkg".toList, "README.md".toList], "hello".toList,
        "markdown".toList, ["README.md".toList]⟩] := by decide

/-- C7 amended: a top-level `.py` file is included with type `python`, and a
top-level `README.md` is included — but with type `markdown` — provided no
component of the root path and no file name is excluded (equal to an ignore-set
member, or case-insensitively starting with an ignore pattern such as `doc` or
`example`). -/

theorem C7_classification_amended (rootParts : List Str) (name content : Str)
    (hroot : rootParts.any partExcluded = false)
    (hname : partExcluded name = false)
    (hpy : lowerL (modelSuffix name) = ".py".toList) :
    collect_text_files rootParts [⟨[name], content⟩] =
      [⟨rootParts ++ [name], content, "python".toList, [name]⟩] ∧
    collect_text_files rootParts [⟨["README.md".toList], content⟩] =
      [⟨rootParts ++ ["README.md".toList], content, "markdown".toList,
        ["README.md".toList]⟩] := by
  have hlastpy : (rootParts ++ [name]).getLastD [] = name :=
    getLastD_append_right rootParts [name] [] (by simp)
  have hlastmd : (rootParts ++ ["README.md".toList]).getLastD [] =
      "README.md".toList :=
    getLastD_append_right rootParts ["README.md".toList] [] (by simp)
  constructor
  · have hexc : (rootParts ++ [name]).any partExcluded = false := by
      rw [List.any_append, hroot, Bool.false_or]
      simp [hname]
    have hproc : should_process_file (rootParts ++ [name]) = true := by
      rw [should_process_file, if_neg (by rw [hexc]; simp), hlastpy, hpy]
      rw [show (PYTHON_EXTENSIONS.lookup ".py".toList).isSome = true from by decide]
      rw [Bool.true_or]
    rw [collect_singleton, if_pos hproc, hlastpy]
    have hft : fileType name = "python".toList := by
      rw [fileType, hpy,
        show PYTHON_EXTENSIONS.lookup ".py".toList = some "python".toList from by
          decide]
      rfl
    rw [hft]
  · have hexc : (rootParts ++ ["README.md".toList]).any partExcluded = false := by
      rw [List.any_append, hroot, Bool.false_or]
      decide
    have hproc : should_process_file (rootParts ++ ["README.md".toList]) = true := by
      rw [should_process_file, if_neg (by rw [hexc]; simp), hlastmd]
      decide
    rw [collect_singleton, if_pos hproc, hlastmd]
    have hft : fileType "README.md".toList = "markdown".toList := by decide
    rw [hft]

theorem C7_classification_amended_witness :
    (["pkg".toList].any partExcluded = false ∧
      partExcluded "app.py".toList = false ∧
      lowerL (modelSuffix "app.py".toList) = ".py".toList) ∧
    (collect_text_files ["pkg".toList] [⟨["app.py".toList], "x".toList⟩] =
        [⟨["pkg".toList, "app.py".toList], "x".toList, "python".toList,
          ["app.py".toList]⟩] ∧
      collect_text_files ["pkg".toList] [⟨["README.md".toList], "x".toList⟩] =
        [⟨["pkg".toList, "README.md".toList], "x".toList, "markdown".toList,
          ["README.md".toList]⟩]) :=
  ⟨⟨by decide, by decide, by decide⟩,
    C7_classification_amended ["pkg".toList] "app.py".toList "x".toList
      (by decide) (by decide) (by decide)⟩

/-- C10: the exclusion rules are evaluated on every component of the walked
path, including the root directory's own components: if any root component
equals an ignore-set member or case-insensitively starts with `doc` or
`example`, classification of that root yields zero files, whatever the tree
contains. -/

theorem C10_root_prefix_excluded (rootParts : List Str) (tree : List RawFile)
    (h : ∃ p ∈ rootParts, p ∈ IGNORE_DIRS ∨
      "doc".toList.isPrefixOf (lowerL p) = true ∨
      "example".toList.isPrefixOf (lowerL p) = true) :
    collect_text_files rootParts tree = [] := by
  obtain ⟨p, hp, hcond⟩ := h
  have hpe : partExcluded p = true := by
    rw [partExcluded]
    rcases hcond with hdir | hdoc | hex
    · rw [Bool.or_eq_true]
      exact Or.inl (by simpa using hdir)
    · rw [Bool.or_eq_true]
      refine Or.inr (List.any_eq_true.mpr ⟨"*doc*".toList, by decide, ?_⟩)
      simpa using hdoc
    · rw [Bool.or_eq_true]
      refine Or.inr (List.any_eq_true.mpr ⟨"*example*".toList, by decide, ?_⟩)
      simpa using hex
  rw [collect_text_files]
  apply List.filterMap_eq_nil_iff.mpr
  intro f _
  have hany : (rootParts ++ f.rel).any partExcluded = true :=
    List.any_eq_true.mpr ⟨p, List.mem_append_left _ hp, hpe⟩
  have hproc : should_process_file (rootParts ++ f.rel) = false := by
    rw [should_process_file, if_pos hany]
  simp [hproc]

theorem C10_root_prefix_excluded_witness :
    (∃ p ∈ ["home".toList, "docs".toList], p ∈ IGNORE_DIRS ∨
      "doc".toList.isPrefixOf (lowerL p) = true ∨
      "example".toList.isPrefixOf (lowerL p) = true) ∧
    collect_text_files ["home".toList, "docs".toList]
      [⟨["app.py".toList], "x".toList⟩] = [] :=
  ⟨⟨"docs".toList, by decide, by decide⟩,
    C10_root_prefix_excluded ["home".toList, "docs".toList]
      [⟨["app.py".toList], "x".toList⟩]
      ⟨"docs".toList, by decide, by decide⟩⟩

-- ===== ingestion lemmas and claims =====

theorem ingest_skip (env : IngestEnv) (dirs : List Str) (name : Str)
    (h : dbDirOf name ∈ dirs) :
    ingest_and_index_package env dirs name = ⟨.ok (), dirs, false, 0, 0⟩ := by
  simp [ingest_and_index_package, h]

theorem ingest_ok_mem (env : IngestEnv) (dirs : List Str) (name : Str)
    (hok : (ingest_and_index_package env dirs name).result = .ok ()) :
    dbDirOf name ∈ (ingest_and_index_package env dirs name).dirs := by
  by_cases hmem : dbDirOf name ∈ dirs
  · rw [ingest_skip env dirs name hmem]
    exact hmem
  · cases hacq : env.acquireResult with
    | none => simp [ingest_and_index_package, hmem, hacq] at hok
    | some rt =>
      obtain ⟨rootParts, tree⟩ := rt
      by_cases hempty : (collect_text_files rootParts tree).isEmpty
      · simp [ingest_and_index_package, hmem, hacq, hempty] at hok
      · by_cases hek : env.embedOk
        · simp [ingest_and_index_package, hmem, hacq, hempty, hek]
        · simp [ingest_and_index_package, hmem, hacq, hempty, hek] at hok

/-- C3: ingestion is idempotent: when the on-disk index directory for the
derived identifier already exists, `ingest_and_index_package` returns at once
with no acquisition and no embedding work and an unchanged directory list; and
after any successful call, a second call for the same identifier is exactly
such a no-op. -/

theorem C3_ingest_idempotent (env env2 : IngestEnv) (dirs : List Str)
    (name : Str) :
    (dbDirOf name ∈ dirs →
      ingest_and_index_package env dirs name = ⟨.ok (), dirs, false, 0, 0⟩) ∧
    ((ingest_and_index_package env dirs name).result = .ok () →
      ingest_and_index_package env2 (ingest_and_index_package env dirs name).dirs
          name =
        ⟨.ok (), (ingest_and_index_package env dirs name).dirs, false, 0, 0⟩) := by
  constructor
  · intro h
    exact ingest_skip env dirs name h
  · intro hok
    exact ingest_skip env2 _ name (ingest_ok_mem env dirs name hok)

theorem C3_ingest_idempotent_witness :
    (dbDirOf "pkg".toList ∈ [".chroma_pkg".toList] ∧
      ingest_and_index_package ⟨none, false⟩ [".chroma_pkg".toList] "pkg".toList =
        ⟨.ok (), [".chroma_pkg".toList], false, 0, 0⟩) ∧
    ((ingest_and_index_package
        ⟨some (["pkg".toList], [⟨["app.py".toList], "x = 1".toList⟩]), true⟩ []
        "pkg".toList).result = .ok () ∧
      ingest_and_index_package ⟨none, false⟩
          (ingest_and_index_package
            ⟨some (["pkg".toList], [⟨["app.py".toList], "x = 1".toList⟩]), true⟩ []
            "pkg".toList).dirs "pkg".toList =
        ⟨.ok (),
          (ingest_and_index_package
            ⟨some (["pkg".toList], [⟨["app.py".toList], "x = 1".toList⟩]), true⟩ []
            "pkg".toList).dirs, false, 0, 0⟩) :=
  ⟨⟨by decide,
    (C3_ingest_idempotent ⟨none, false⟩ ⟨none, false⟩ [".chroma_pkg".toList]
      "pkg".toList).1 (by decide)⟩,
   ⟨by decide,
    (C3_ingest_idempotent
      ⟨some (["pkg".toList], [⟨["app.py".toList], "x = 1".toList⟩]), true⟩
      ⟨none, false⟩ [] "pkg".toList).2 (by decide)⟩⟩

/-- C4: when acquisition succeeds but the classified walk of the acquired tree
produces zero chunks, ingestion fails with the empty-corpus error and the
on-disk directory list is unchanged — no index is left behind. -/

theorem C4_empty_corpus (env : IngestEnv) (dirs : List Str) (name : Str)
    (rootParts : List Str) (tree : List RawFile)
    (hacq : env.acquireResult = some (rootParts, tree))
    (hskip : dbDirOf name ∉ dirs)
    (hchunks : (collect_text_files rootParts tree).flatMap
      (fun f => chunk_text f.content 1000) = []) :
    (ingest_and_index_package env dirs name).result =
        .error .EmptyCorpusError ∧
      (ingest_and_index_package env dirs name).dirs = dirs := by
  have hfiles : collect_text_files rootParts tree = [] := by
    cases hf : collect_text_files rootParts tree with
    | nil => rfl
    | cons f fs =>
      rw [hf, List.flatMap_cons] at hchunks
      exact absurd (List.append_eq_nil.mp hchunks).1
        (chunk_text_ne_nil f.content 1000)
  constructor
  · simp [ingest_and_index_package, hskip, hacq, hfiles]
  · simp [ingest_and_index_package, hskip, hacq, hfiles]

theorem C4_empty_corpus_witness :
    ((⟨some (["pkg".toList], [⟨["photo.jpg".toList], "zz".toList⟩]), true⟩ :
        IngestEnv).acquireResult =
        some (["pkg".toList], [⟨["photo.jpg".toList], "zz".toList⟩]) ∧
      dbDirOf "pkg".toList ∉ ([] : List Str) ∧
      (collect_text_files ["pkg".toList]
        [⟨["photo.jpg".toList], "zz".toList⟩]).flatMap
          (fun f => chunk_text f.content 1000) = []) ∧
    ((ingest_and_index_package
        ⟨some (["pkg".toList], [⟨["photo.jpg".toList], "zz".toList⟩]), true⟩ []
        "pkg".toList).result = .error .EmptyCorpusError ∧
      (ingest_and_index_package
        ⟨some (["pkg".toList], [⟨["photo.jpg".toList], "zz".toList⟩]), true⟩ []
        "pkg".toList).dirs = []) :=
  ⟨⟨rfl, by decide, by decide⟩,
    C4_empty_corpus
      ⟨some (["pkg".toList], [⟨["photo.jpg".toList], "zz".toList⟩]), true⟩ []
      "pkg".toList ["pkg".toList] [⟨["photo.jpg".toList], "zz".toList⟩]
      rfl (by decide) (by decide)⟩

/-- C2 (code bug): `chromadb.PersistentClient(path=db_dir)` creates the store
directory before `collection.add` embeds and writes the batch, so a failing
embed/commit leaves the `.chroma_` marker on disk and the error is returned;
a subsequent ingest call for the same identifier then skips as already
indexed, performing no acquisition and no embedding — even though the batch
write never succeeded. -/

theorem C2_marker_left_after_failed_commit :
    ((ingest_and_index_package
        ⟨some (["pkg".toList], [⟨["app.py".toList], "x = 1".toList⟩]), false⟩ []
        "pkg".toList).result = .error .EmbedCommitError ∧
      ".chroma_pkg".toList ∈
        (ingest_and_index_package
          ⟨some (["pkg".toList], [⟨["app.py".toList], "x = 1".toList⟩]), false⟩ []
          "pkg".toList).dirs) ∧
    ingest_and_index_package
        ⟨some (["pkg".toList], [⟨["app.py".toList], "x = 1".toList⟩]), true⟩
        (ingest_and_index_package
          ⟨some (["pkg".toList], [⟨["app.py".toList], "x = 1".toList⟩]), false⟩ []
          "pkg".toList).dirs "pkg".toList =
      ⟨.ok (), [".chroma_pkg".toList], false, 0, 0⟩ := by
  refine ⟨⟨by decide, by decide⟩, by decide⟩

-- ===== identifier derivation lemmas and claims =====

theorem replaceDotGit_of_not_has (l : List Char) (h : hasDotGit l = false) :
    replaceDotGit l = l := by
  induction l using hasDotGit.induct with
  | case1 c g i t rest ih =>
    rw [hasDotGit, Bool.or_eq_false_iff] at h
    rw [replaceDotGit, if_neg (by rw [h.1]; simp)]
    rw [ih h.2]
  | case2 l h2 =>
    rw [replaceDotGit.eq_2]
    exact h2

theorem replaceDotGit_append_dg : ∀ (base : List Char),
    hasDotGit base = false →
    replaceDotGit (base ++ '.' :: 'g' :: 'i' :: 't' :: []) = base := by
  have H : ∀ (n : Nat) (base : List Char), base.length ≤ n →
      hasDotGit base = false →
      replaceDotGit (base ++ '.' :: 'g' :: 'i' :: 't' :: []) = base := by
    intro n
    induction n with
    | zero =>
      intro base hlen _
      have hb : base = [] := List.eq_nil_of_length_eq_zero (Nat.le_zero.mp hlen)
      rw [hb]
      decide
    | succ n ih =>
      intro base hlen h
      match base with
      | [] => decide
      | [a] =>
        show replaceDotGit (a :: '.' :: 'g' :: 'i' :: 't' :: []) = [a]
        rw [replaceDotGit, if_neg (by simp)]
        rw [show replaceDotGit ('.' :: 'g' :: 'i' :: 't' :: []) = [] from by decide]
      | [a, b] =>
        show replaceDotGit (a :: b :: '.' :: 'g' :: 'i' :: 't' :: []) = [a, b]
        rw [replaceDotGit, if_neg (by simp)]
        rw [replaceDotGit, if_neg (by simp)]
        rw [show replaceDotGit ('.' :: 'g' :: 'i' :: 't' :: []) = [] from by decide]
      | [a, b, c] =>
        show replaceDotGit (a :: b :: c :: '.' :: 'g' :: 'i' :: 't' :: []) =
          [a, b, c]
        rw [replaceDotGit, if_neg (by simp)]
        rw [replaceDotGit, if_neg (by simp)]
        rw [replaceDotGit, if_neg (by simp)]
        rw [show replaceDotGit ('.' :: 'g' :: 'i' :: 't' :: []) = [] from by decide]
      | c :: g :: i :: t :: rest =>
        rw [hasDotGit, Bool.or_eq_false_iff] at h
        show replaceDotGit
            (c :: g :: i :: t :: (rest ++ '.' :: 'g' :: 'i' :: 't' :: [])) =
          c :: g :: i :: t :: rest
        rw [replaceDotGit, if_neg (by rw [h.1]; simp)]
        have hlen2 : (g :: i :: t :: rest).length ≤ n := by
          simp at hlen
          simp
          omega
        rw [show g :: i :: t :: (rest ++ '.' :: 'g' :: 'i' :: 't' :: []) =
          (g :: i :: t :: rest) ++ '.' :: 'g' :: 'i' :: 't' :: [] from rfl]
        rw [ih (g :: i :: t :: rest) hlen2 h.2]
  intro base h
  exact H base.length base (Nat.le_refl _) h

theorem getLastD_splitCh_slash (pre seg : Str) (hseg : '/' ∉ seg) :
    (splitCh '/' (pre ++ '/' :: seg)).getLastD [] = seg := by
  rw [splitCh_append_sep,
    getLastD_append_right _ _ _ (splitCh_ne_nil '/' seg),
    splitCh_of_not_mem '/' seg hseg]
  rfl

/-- C8 counterexample: for the input `https://github.com/u/x.gity` the trailing
path segment is `x.gity`, which does not end in `.git` — yet the derived
identifier is `xy`, because the code removes every occurrence of the substring
`.git` (`str.replace`), not just a version-control suffix. -/

theorem C8_counterexample :
    deriveIdentifier "https://github.com/u/x.gity".toList = "xy".toList ∧
      (splitCh '/' "https://github.com/u/x.gity".toList).getLastD [] =
        "x.gity".toList ∧
      "xy".toList ≠ "x.gity".toList := by
  refine ⟨by decide, by decide, by decide⟩

/-- C8 amended: the derived identifier is the trailing path segment with every
occurrence of the substring `.git` removed; when the segment contains `.git`
at most as a trailing suffix, this coincides with stripping the
version-control suffix (and an occurrence-free segment is returned
unchanged).  The derivation is a pure function of the input, so the same input
always yields the same identifier and index location. -/

theorem C8_identifier_amended (pre base : Str)
    (hgit : hasDotGit base = false) (hslash : '/' ∉ base) :
    deriveIdentifier (pre ++ '/' :: (base ++ ".git".toList)) = base ∧
    deriveIdentifier (pre ++ '/' :: base) = base := by
  have hs2 : '/' ∉ base ++ ".git".toList := by
    intro hm
    rcases List.mem_append.mp hm with hm | hm
    · exact hslash hm
    · exact absurd hm (by decide)
  constructor
  · rw [deriveIdentifier, getLastD_splitCh_slash pre _ hs2]
    exact replaceDotGit_append_dg base hgit
  · rw [deriveIdentifier, getLastD_splitCh_slash pre base hslash]
    exact replaceDotGit_of_not_has base hgit

theorem C8_identifier_amended_witness :
    (hasDotGit "repo".toList = false ∧ '/' ∉ "repo".toList) ∧
    (deriveIdentifier ("https://github.com/u".toList ++
        '/' :: ("repo".toList ++ ".git".toList)) = "repo".toList ∧
      deriveIdentifier ("https://github.com/u".toList ++ '/' :: "repo".toList) =
        "repo".toList) :=
  ⟨⟨by decide, by decide⟩,
    C8_identifier_amended "https://github.com/u".toList "repo".toList
      (by decide) (by decide)⟩

-- ===== retrieval lemmas and claims =====

theorem replaceChroma_of_not_has (l : List Char) (h : hasChroma l = false) :
    replaceChroma l = l := by
  induction l using hasChroma.induct with
  | case1 c1 c2 c3 c4 c5 c6 c7 c8 rest ih =>
    rw [hasChroma, Bool.or_eq_false_iff] at h
    rw [replaceChroma, if_neg (by rw [h.1]; simp)]
    rw [ih h.2]
  | case2 l h2 =>
    rw [replaceChroma.eq_2]
    exact h2

theorem replaceChroma_chromaHead (t : Str) :
    replaceChroma (".chroma_".toList ++ t) = replaceChroma t := by
  rw [show ".chroma_".toList ++ t =
    '.' :: 'c' :: 'h' :: 'r' :: 'o' :: 'm' :: 'a' :: '_' :: t from rfl]
  rw [replaceChroma, if_pos (by decide)]

theorem stripSlashes_append_slash (ident : Str)
    (hl : ident.dropWhile (fun c => c == '/' || c == '\\') = ident)
    (hr : ident.reverse.dropWhile (fun c => c == '/' || c == '\\') =
      ident.reverse) :
    stripSlashes (ident ++ ['/']) = ident := by
  cases hid : ident with
  | nil => decide
  | cons a t =>
    have ha : (a == '/' || a == '\\') = false := by
      rw [hid] at hl
      have h0 := List.dropWhile_eq_self_iff.mp hl (by simp)
      simpa using h0
    rw [hid] at hr
    rw [stripSlashes, List.cons_append, List.dropWhile_cons, ha]
    simp only [Bool.false_eq_true, if_false]
    rw [show (a :: (t ++ ['/'])).reverse =
      '/' :: (a :: t).reverse from by simp]
    rw [List.dropWhile_cons]
    rw [show (('/' : Char) == '/' || ('/' : Char) == '\\') = true from by decide]
    simp only [if_true]
    rw [hr, List.reverse_reverse]

theorem latestDir_mem (ds : List (Str × Nat)) (d : Str × Nat)
    (h : latestDir ds = some d) : d ∈ ds := by
  cases ds with
  | nil => cases h
  | cons a rest =>
    rw [latestDir] at h
    have hfold : ∀ (rest : List (Str × Nat)) (acc : Str × Nat),
        rest.foldl (fun best x => if best.2 < x.2 then x else best) acc = acc ∨
          rest.foldl (fun best x => if best.2 < x.2 then x else best) acc ∈
            rest := by
      intro rest
      induction rest with
      | nil => intro acc; exact Or.inl rfl
      | cons b u ih =>
        intro acc
        rw [List.foldl_cons]
        rcases ih (if acc.2 < b.2 then b else acc) with h1 | h1
        · rw [h1]
          by_cases hb : acc.2 < b.2
          · rw [if_pos hb]
            exact Or.inr (List.mem_cons_self b u)
          · rw [if_neg hb]
            exact Or.inl rfl
        · exact Or.inr (List.mem_cons_of_mem b h1)
    injection h with h
    rcases hfold rest a with h1 | h1
    · rw [← h, h1]
      exact List.mem_cons_self a rest
    · rw [← h]
      exact List.mem_cons_of_mem a h1

theorem latestDir_maximal (ds : List (Str × Nat)) (d : Str × Nat)
    (h : latestDir ds = some d) : ∀ x ∈ ds, x.2 ≤ d.2 := by
  cases ds with
  | nil => cases h
  | cons a rest =>
    rw [latestDir] at h
    have hfold : ∀ (rest : List (Str × Nat)) (acc : Str × Nat),
        acc.2 ≤ (rest.foldl (fun best x => if best.2 < x.2 then x else best)
            acc).2 ∧
          ∀ x ∈ rest, x.2 ≤
            (rest.foldl (fun best x => if best.2 < x.2 then x else best)
              acc).2 := by
      intro rest
      induction rest with
      | nil =>
        intro acc
        exact ⟨Nat.le_refl _, by intro x hx; cases hx⟩
      | cons b u ih =>
        intro acc
        rw [List.foldl_cons]
        obtain ⟨hacc, hall⟩ := ih (if acc.2 < b.2 then b else acc)
        have hstep : acc.2 ≤ (if acc.2 < b.2 then b else acc).2 ∧
            b.2 ≤ (if acc.2 < b.2 then b else acc).2 := by
          by_cases hb : acc.2 < b.2
          · rw [if_pos hb]
            exact ⟨Nat.le_of_lt hb, Nat.le_refl _⟩
          · rw [if_neg hb]
            exact ⟨Nat.le_refl _, Nat.le_of_not_lt hb⟩
        refine ⟨Nat.le_trans hstep.1 hacc, ?_⟩
        intro x hx
        rcases List.mem_cons.mp hx with hx | hx
        · rw [hx]
          exact Nat.le_trans hstep.2 hacc
        · exact hall x hx
    injection h with h
    intro x hx
    rcases List.mem_cons.mp hx with hx | hx
    · rw [hx, ← h]
      exact (hfold rest a).1
    · rw [← h]
      exact (hfold rest a).2 x hx

/-- C9 counterexample: with the single existing index directory
`.chroma_a.chroma_b` (the index of a package whose identifier contains the
string `.chroma_`), the no-identifier query fails with the no-index error even
though an index exists: the package name is recovered by removing every
occurrence of `.chroma_` from the directory name, which yields `ab`, and
`.chroma_ab` does not exist. -/

theorem C9_counterexample :
    retrieve_relevant_chunks (fun _ _ _ => [])
        [(".chroma_a.chroma_b".toList, 5)] "q".toList none 5 =
      .error .NoIndexError ∧
    ".chroma_".toList.isPrefixOf ".chroma_a.chroma_b".toList = true := by
  refine ⟨by decide, by decide⟩

/-- C9 amended: retrieval with an explicit identifier fails with the no-index
error exactly when the identifier's index directory is absent; retrieval with
the identifier omitted fails when no `.chroma_*` directory exists, and
otherwise selects the most recently modified one and succeeds — provided the
selected directory name contains `.chroma_` only as its leading prefix and the
remaining identifier neither starts nor ends with a slash or backslash (the
name is recovered by replace-all and strip). -/

theorem C9_no_index_amended (store : Str → Str → Nat → List (List Str))
    (dirs : List (Str × Nat)) (q : Str) (k : Nat) :
    (∀ p : Str, (∀ d ∈ dirs, d.1 ≠ ".chroma_".toList ++ p) →
      retrieve_relevant_chunks store dirs q (some p) k =
        .error .NoIndexError) ∧
    (∀ p : Str, (∃ d ∈ dirs, d.1 = ".chroma_".toList ++ p) →
      retrieve_relevant_chunks store dirs q (some p) k =
        .ok ((store (".chroma_".toList ++ p) q k).headD [])) ∧
    (chromaGlob dirs = [] →
      retrieve_relevant_chunks store dirs q none k = .error .NoIndexError) ∧
    (∀ (ident : Str) (t : Nat),
      latestDir (chromaGlob dirs) = some (".chroma_".toList ++ ident, t) →
      hasChroma (ident ++ ['/']) = false →
      ident.dropWhile (fun c => c == '/' || c == '\\') = ident →
      ident.reverse.dropWhile (fun c => c == '/' || c == '\\') =
        ident.reverse →
      (∀ x ∈ chromaGlob dirs, x.2 ≤ t) ∧
        retrieve_relevant_chunks store dirs q none k =
          .ok ((store (".chroma_".toList ++ ident) q k).headD [])) := by
  refine ⟨?_, ?_, ?_, ?_⟩
  · intro p hnone
    have hany : dirs.any (fun d => d.1 == ".chroma_".toList ++ p) = false := by
      apply List.any_eq_false.mpr
      intro d hd
      simpa using hnone d hd
    simp [retrieve_relevant_chunks, hany]
    intro x hx
    exact hnone (".chroma_".toList ++ p, x) hx rfl
  · intro p hex
    obtain ⟨d, hd, heq⟩ := hex
    have hany : dirs.any (fun d => d.1 == ".chroma_".toList ++ p) = true :=
      List.any_eq_true.mpr ⟨d, hd, by rw [heq]; simp⟩
    simp [retrieve_relevant_chunks, hany]
    refine ⟨d.2, ?_⟩
    have hd2 : (d.1, d.2) ∈ dirs := hd
    rw [heq] at hd2
    exact hd2
  · intro hglob
    simp [retrieve_relevant_chunks, get_latest_package_name, hglob, latestDir]
  · intro ident t hlatest hnochroma hdl hdr
    have hok : get_latest_package_name dirs = .ok ident := by
      rw [get_latest_package_name, hlatest]
      show Except.ok (stripSlashes (replaceChroma
        ((".chroma_".toList ++ ident) ++ ['/']))) = Except.ok ident
      rw [show (".chroma_".toList ++ ident) ++ ['/'] =
        ".chroma_".toList ++ (ident ++ ['/']) from by rw [List.append_assoc]]
      rw [replaceChroma_chromaHead, replaceChroma_of_not_has _ hnochroma,
        stripSlashes_append_slash ident hdl hdr]
    have hmemdirs : (".chroma_".toList ++ ident, t) ∈ dirs :=
      List.mem_of_mem_filter (latestDir_mem _ _ hlatest)
    refine ⟨latestDir_maximal _ _ hlatest, ?_⟩
    have hany : dirs.any (fun d => d.1 == ".chroma_".toList ++ ident) = true :=
      List.any_eq_true.mpr ⟨_, hmemdirs, by simp⟩
    simp [retrieve_relevant_chunks, hok, hany]
    exact ⟨t, hmemdirs⟩

theorem C9_no_index_amended_witness :
    (retrieve_relevant_chunks (fun _ _ _ => [["c".toList]])
        [(".chroma_pkg".toList, 3)] "q".toList (some "none".toList) 5 =
      .error .NoIndexError) ∧
    (retrieve_relevant_chunks (fun _ _ _ => [["c".toList]])
        [(".chroma_pkg".toList, 3)] "q".toList (some "pkg".toList) 5 =
      .ok ((( fun (_ : Str) (_ : Str) (_ : Nat) => [["c".toList]])
        (".chroma_".toList ++ "pkg".toList) "q".toList 5).headD [])) ∧
    (retrieve_relevant_chunks (fun _ _ _ => [["c".toList]]) []
        "q".toList none 5 = .error .NoIndexError) ∧
    ((∀ x ∈ chromaGlob [(".chroma_pkg".toList, 3)], x.2 ≤ 3) ∧
      retrieve_relevant_chunks (fun _ _ _ => [["c".toList]])
          [(".chroma_pkg".toList, 3)] "q".toList none 5 =
        .ok ((( fun (_ : Str) (_ : Str) (_ : Nat) => [["c".toList]])
          (".chroma_".toList ++ "pkg".toList) "q".toList 5).headD [])) :=
  ⟨(C9_no_index_amended (fun _ _ _ => [["c".toList]])
      [(".chroma_pkg".toList, 3)] "q".toList 5).1 "none".toList (by decide),
   (C9_no_index_amended (fun _ _ _ => [["c".toList]])
      [(".chroma_pkg".toList, 3)] "q".toList 5).2.1 "pkg".toList
     ⟨(".chroma_pkg".toList, 3), by decide, by decide⟩,
   (C9_no_index_amended (fun _ _ _ => [["c".toList]]) [] "q".toList 5).2.2.1
     (by decide),
   (C9_no_index_amended (fun _ _ _ => [["c".toList]])
      [(".chroma_pkg".toList, 3)] "q".toList 5).2.2.2 "pkg".toList 3
     (by decide) (by decide) (by decide) (by decide)⟩

theorem C5_oversized_unit_chunks_witness :
    "aaaa".toList ∈ chunk_text "aaaa".toList 3 ∧
      ("aaaa".toList.length ≤ 3 ∨
        ("aaaa".toList ∈ unitsOf 3 "aaaa".toList ∧ 3 < "aaaa".toList.length)) :=
  ⟨by decide, C5_oversized_unit_chunks.1 "aaaa".toList 3 "aaaa".toList (by decide)⟩
